import Mathlib

/-!
Shallow embedding of the gitlite session-authorization and command-gateway
subsystem: the repository permission table (`internal/repo/repo.go`), the
git command gateway (`internal/git`, `ParseCommand`), the identity store
(`internal/auth/models.go`), the SSH session router
(`internal/server/handler.go`), the repository-permission persistence codec
(`SaveToFile`/`LoadFromFile`) and the admin console layer (`TUI.handleRepo`
and `TUI.handleUser`).

Go maps are embedded as association lists with the update/delete semantics
of the corresponding map operations; file-system effects (`os.Stat`) are
embedded as an explicit predicate on paths; the child git process and the
SSH transport are left at the boundary (a session outcome records that the
process would be invoked, with which program name and path).
-/

namespace Gitlite

/-- Permission level, from `repo.Permission` (`PermNone`, `PermRead`,
`PermWrite` = 0, 1, 2). -/
inductive Perm where
  | pnone
  | pread
  | pwrite
deriving DecidableEq, Repr, BEq

/-- Numeric value of a permission level, matching the Go constants; used for
the `>=` comparisons in `CheckPermission`. -/
def Perm.toNat : Perm → Nat
  | .pnone => 0
  | .pread => 1
  | .pwrite => 2

/-- Association-list lookup, embedding a Go map read `v, ok := m[k]`. -/
def alookup {α : Type} (l : List (String × α)) (k : String) : Option α :=
  match l with
  | [] => none
  | (k', v) :: t => if k' = k then some v else alookup t k

/-- Association-list insert-or-replace, embedding a Go map write
`m[k] = v`. -/
def ainsert {α : Type} (l : List (String × α)) (k : String) (v : α) :
    List (String × α) :=
  match l with
  | [] => [(k, v)]
  | (k', v') :: t => if k' = k then (k, v) :: t else (k', v') :: ainsert t k v

/-- Association-list removal, embedding a Go map delete `delete(m, k)`. -/
def aerase {α : Type} (l : List (String × α)) (k : String) :
    List (String × α) :=
  match l with
  | [] => []
  | (k', v) :: t => if k' = k then aerase t k else (k', v) :: aerase t k

/-- `repo.Repository`: name, filesystem path, and the `Users` permission
map. -/
structure Repository where
  name : String
  path : String
  users : List (String × Perm)
deriving DecidableEq, Repr

/-- `repo.Manager`: the base path and the tracked-repository map
(`repos`). The `sync.RWMutex` is not part of the sequential state. -/
structure Mgr where
  basePath : String
  repos : List (String × Repository)
deriving DecidableEq, Repr

/-- `strings.TrimSuffix(name, ".git")` on the character list of a name:
drops one trailing `.git` if present. -/
def trimGitL (l : List Char) : List Char :=
  if 4 ≤ l.length ∧ l.drop (l.length - 4) = ['.', 'g', 'i', 't'] then
    l.take (l.length - 4)
  else l

/-- `strings.TrimSuffix(name, ".git")` on strings. -/
def trimGit (s : String) : String :=
  String.mk (trimGitL s.data)

/-- The guest clause of `Manager.CheckPermission`:
`guestPerm, hasGuest := repo.Users["guest"]; hasGuest && guestPerm >= PermRead`. -/
def guestReadOK (r : Repository) : Bool :=
  match alookup r.users "guest" with
  | some g => Perm.pread.toNat ≤ g.toNat
  | none => false

/-- `Manager.CheckPermission(repoName, userName, needWrite)` from
`internal/repo/repo.go`: trim the `.git` suffix, deny untracked repos,
grant guest-gated read before the empty-username rejection, then check the
caller's own entry (`== PermWrite` for writes, `>= PermRead` for reads). -/
def checkPermission (m : Mgr) (repoName userName : String)
    (needWrite : Bool) : Bool :=
  match alookup m.repos (trimGit repoName) with
  | none => false
  | some r =>
    if needWrite = false ∧ guestReadOK r = true then
      true
    else if userName = "" then
      false
    else
      match alookup r.users userName with
      | none => false
      | some p => if needWrite then p = Perm.pwrite else Perm.pread.toNat ≤ p.toNat

/-! ### Command gateway (`internal/git`, `ParseCommand`) -/

/-- Character class `[a-zA-Z0-9_\-]` of `repoPathRegex`. -/
def isPathChar (c : Char) : Bool :=
  (('a' ≤ c ∧ c ≤ 'z') ∨ ('A' ≤ c ∧ c ≤ 'Z') ∨ ('0' ≤ c ∧ c ≤ '9')
    ∨ c = '_' ∨ c = '-')

mutual

/-- One-or-more path characters followed by `restOK`: the `seg(/seg)*` body
of `repoPathRegex`, entered at the start of a segment. -/
def segOK : List Char → Bool
  | [] => false
  | c :: rest => isPathChar c && restOK rest

/-- Continuation inside a segment: more path characters, a `/` opening a
fresh nonempty segment, or the end of the body. -/
def restOK : List Char → Bool
  | [] => true
  | c :: rest => if c = '/' then segOK rest else isPathChar c && restOK rest

end

/-- `repoPathRegex = ^[a-zA-Z0-9_\-]+(/[a-zA-Z0-9_\-]+)*\.git$`: the string
is a nonempty `/`-separated body of path characters followed by the literal
`.git`. -/
def repoPathOK (l : List Char) : Bool :=
  decide (4 ≤ l.length) && decide (l.drop (l.length - 4) = ['.', 'g', 'i', 't'])
    && segOK (l.take (l.length - 4))

/-- Go `unicode.IsSpace` (the White_Space code points), used by
`strings.TrimSpace`. -/
def isGoSpace (c : Char) : Bool :=
  let n := c.toNat
  (9 ≤ n ∧ n ≤ 13) ∨ n = 32 ∨ n = 0x85 ∨ n = 0xA0 ∨ n = 0x1680
    ∨ (0x2000 ≤ n ∧ n ≤ 0x200A) ∨ n = 0x2028 ∨ n = 0x2029 ∨ n = 0x202F
    ∨ n = 0x205F ∨ n = 0x3000

/-- `strings.TrimSpace`: drop White_Space characters from both ends. -/
def trimSpace (l : List Char) : List Char :=
  ((l.dropWhile isGoSpace).reverse.dropWhile isGoSpace).reverse

/-- `strings.SplitN(s, " ", 2)`: the part before the first space, and — when
a space exists — the remainder after it. `none` in the second component is
Go's `len(parts) != 2` case. -/
def splitTwo : List Char → List Char × Option (List Char)
  | [] => ([], none)
  | c :: rest =>
    if c = ' ' then ([], some rest)
    else
      let p := splitTwo rest
      (c :: p.1, p.2)

/-- The single-quote character (code point 39). -/
def squote : Char := Char.ofNat 39

/-- The double-quote character (code point 34). -/
def dquote : Char := Char.ofNat 34

/-- The two-character cutset of the quote-trimming step of `ParseCommand`:
single quote and double quote. -/
def isQuote (c : Char) : Bool :=
  c = squote || c = dquote

/-- `strings.Trim(s, "'\"")`: drop all leading and trailing quote
characters (single or double, in any mixture). -/
def trimQuotes (l : List Char) : List Char :=
  ((l.dropWhile isQuote).reverse.dropWhile isQuote).reverse

/-- `strings.TrimPrefix(repoPath, "/")`: drop at most one leading slash. -/
def trimPrefixSlash : List Char → List Char
  | [] => []
  | c :: rest => if c = '/' then rest else c :: rest

/-- `allowedCommands`: the two whitelisted subcommand names. -/
def allowedName (s : String) : Bool :=
  s = "git-upload-pack" || s = "git-receive-pack"

/-- `git.Command`: parsed subcommand name, repository path, and the
write flag. -/
structure Command where
  cmd : String
  repoPath : String
  isWrite : Bool
deriving DecidableEq, Repr

/-- The three error shapes of `ParseCommand`: `invalid command format`,
`command not allowed: %s`, and `invalid repo path: %s`. -/
inductive ParseErr where
  | formatError
  | notAllowed (cmd : String)
  | invalidPath (path : String)
deriving DecidableEq, Repr

/-- `git.ParseCommand(rawCmd)` from the command gateway: trim surrounding
space, split once on the first space, whitelist the subcommand, strip all
surrounding quotes and at most one leading `/` from the argument, and
validate the result against `repoPathRegex`. -/
def parseCommand (raw : String) : Except ParseErr Command :=
  let t := trimSpace raw.data
  match splitTwo t with
  | (_, none) => .error .formatError
  | (pre, some arg) =>
    let cmd := String.mk pre
    if allowedName cmd then
      let rp := trimPrefixSlash (trimQuotes arg)
      if repoPathOK rp then
        .ok ⟨cmd, String.mk rp, cmd = "git-receive-pack"⟩
      else
        .error (.invalidPath (String.mk rp))
    else
      .error (.notAllowed cmd)

/-- Modelled from the spec for comparison (C4): trim exactly a single layer
of surrounding single or double quotes — one leading and one trailing quote
character removed when both ends carry one — instead of the all-layers trim
the code performs. -/
def trimQuotesOneLayer (l : List Char) : List Char :=
  if 2 ≤ l.length ∧ isQuote (l.headD ' ') = true ∧ isQuote (l.getLastD ' ') = true
  then (l.drop 1).dropLast
  else l

/-- The `ParseCommand` pipeline with the single-layer quote trim that the
spec describes substituted for the code's all-layers trim; used to compare
the spec sentence of C4 against the code. -/
def parseCommandOneLayer (raw : String) : Except ParseErr Command :=
  let t := trimSpace raw.data
  match splitTwo t with
  | (_, none) => .error .formatError
  | (pre, some arg) =>
    let cmd := String.mk pre
    if allowedName cmd then
      let rp := trimPrefixSlash (trimQuotesOneLayer arg)
      if repoPathOK rp then
        .ok ⟨cmd, String.mk rp, cmd = "git-receive-pack"⟩
      else
        .error (.invalidPath (String.mk rp))
    else
      .error (.notAllowed cmd)

/-- A command line whose argument wears two layers of quotes. -/
def rawTwoLayerQuotes : String := "git-upload-pack ''/proj.git''"

/-! ### Permission-table mutation (`Manager.AddUser` etc.) -/

/-- `Manager.AddUser(repoName, userName, perm)`: error if the repository is
untracked, otherwise `repo.Users[userName] = perm`. No check on the user
name or the permission value is performed here. -/
def mgrAddUser (m : Mgr) (repoName userName : String) (p : Perm) :
    Except String Mgr :=
  match alookup m.repos repoName with
  | none => .error ("repository " ++ repoName ++ " does not exist")
  | some r =>
    .ok { m with
          repos := ainsert m.repos repoName { r with users := ainsert r.users userName p } }

/-- `Manager.RemoveUser(repoName, userName)`: error if the repository is
untracked, otherwise `delete(repo.Users, userName)`. -/
def mgrRemoveUser (m : Mgr) (repoName userName : String) :
    Except String Mgr :=
  match alookup m.repos repoName with
  | none => .error ("repository " ++ repoName ++ " does not exist")
  | some r =>
    .ok { m with
          repos := ainsert m.repos repoName { r with users := aerase r.users userName } }

/-- `Manager.GetRepoPath` / the path allocated by `Create`:
`filepath.Join(basePath, "repos", name+".git")`, embedded as `/`-joined
concatenation. -/
def repoDiskPath (basePath name : String) : String :=
  basePath ++ "/repos/" ++ name ++ ".git"

/-- `Manager.Create(name)`: error if already tracked; otherwise the bare
repository is initialized on disk and the entry is added with an empty
permission map. `diskOk = false` stands for `git init --bare` failing, in
which case the partial directory is removed and no entry is tracked. -/
def mgrCreate (m : Mgr) (name : String) (diskOk : Bool) :
    Except String Mgr :=
  match alookup m.repos name with
  | some _ => .error ("repository " ++ name ++ " already exists")
  | none =>
    if diskOk then
      .ok { m with
            repos := m.repos
              ++ [(name, ⟨name, repoDiskPath m.basePath name, []⟩)] }
    else .error "failed to init repository"

/-- `Manager.Delete(name)`: error if untracked; `diskOk = false` stands for
`os.RemoveAll` failing, which aborts before the tracked entry is dropped. -/
def mgrDelete (m : Mgr) (name : String) (diskOk : Bool) :
    Except String Mgr :=
  match alookup m.repos name with
  | none => .error ("repository " ++ name ++ " does not exist")
  | some _ =>
    if diskOk then .ok { m with repos := aerase m.repos name }
    else .error "remove failed"

/-! ### Persistence codec (`Manager.SaveToFile` / `Manager.LoadFromFile`) -/

/-- `storage.RepoPermission`: one serialized repository record. -/
structure RepoRec where
  name : String
  path : String
  users : List (String × String)
deriving DecidableEq, Repr

/-- The per-repository loop body of `SaveToFile`: `PermRead` becomes `"r"`,
`PermWrite` becomes `"rw"`, and any other value (i.e. `PermNone`) is not
serialized. -/
def savedUsers (us : List (String × Perm)) : List (String × String) :=
  us.filterMap fun p =>
    match p.2 with
    | .pread => some (p.1, "r")
    | .pwrite => some (p.1, "rw")
    | .pnone => none

/-- `Manager.SaveToFile`: serialize every tracked repository. -/
def saveRecords (m : Mgr) : List RepoRec :=
  m.repos.map fun p => ⟨p.2.name, p.2.path, savedUsers p.2.users⟩

/-- The per-user loop of `LoadFromFile`: `"r"` and `"rw"` are decoded, any
other permission string is skipped (`default: continue`). -/
def parsePerms (us : List (String × String)) : List (String × Perm) :=
  us.filterMap fun p =>
    if p.2 = "r" then some (p.1, Perm.pread)
    else if p.2 = "rw" then some (p.1, Perm.pwrite)
    else none

/-- `Manager.LoadFromFile` after the file has been decoded into records:
skip records whose `path` no longer exists on disk (`disk` embeds
`os.Stat`/`os.IsNotExist`), decode the permission strings, and admit the
record only if the name is not already tracked. -/
def loadRecords (recs : List RepoRec) (disk : String → Bool) (m : Mgr) :
    Mgr :=
  recs.foldl
    (fun acc rd =>
      if disk rd.path = false then acc
      else if (alookup acc.repos rd.name).isSome then acc
      else { acc with
             repos := acc.repos ++ [(rd.name, ⟨rd.name, rd.path, parsePerms rd.users⟩)] })
    m

/-! ### Identity store (`internal/auth/models.go`) -/

/-- `auth.User`: a username and its public keys (keys embedded by their
authorized-keys strings; fingerprint details are not needed here). -/
structure AuthUser where
  name : String
  keys : List String
deriving DecidableEq, Repr

/-- `auth.Manager.CreateUser(name)`: reject the name `admin`, reject an
already-registered name, otherwise register the user with no keys. There is
no check for the name `guest` at this level. -/
def authCreateUser (users : List (String × AuthUser)) (name : String) :
    Except String (List (String × AuthUser)) :=
  if name = "admin" then .error "cannot create user named admin"
  else
    match alookup users name with
    | some _ => .error ("user " ++ name ++ " already exists")
    | none => .ok (users ++ [(name, ⟨name, []⟩)])

/-- `auth.Manager.DeleteUser(name)`: error if absent, else remove. -/
def authDeleteUser (users : List (String × AuthUser)) (name : String) :
    Except String (List (String × AuthUser)) :=
  match alookup users name with
  | none => .error ("user " ++ name ++ " does not exist")
  | some _ => .ok (aerase users name)

/-! ### Console layer (`TUI.handleRepo` / `TUI.handleUser`) -/

/-- The shared state the console mutates: the identity store's user map and
the repository permission table. -/
structure ConsoleSt where
  auth : List (String × AuthUser)
  mgr : Mgr
deriving DecidableEq, Repr

/-- The console operations relevant to the permission table, with the
arguments the admin typed. `diskOk` stands for success of the operation's
external filesystem step. -/
inductive ConsoleOp where
  | repoCreate (name : String) (diskOk : Bool)
  | repoDelete (name : String) (diskOk : Bool)
  | repoAddUser (repoName userName permStr : String)
  | repoDelUser (repoName userName : String)
  | userCreate (name : String)
  | userDelete (name : String)
deriving DecidableEq, Repr

/-- `repo adduser <repo> <user> <r|rw>` from `TUI.handleRepo`: parse the
permission string, rejecting `guest` with `rw` before anything is mutated;
require the user to exist in the identity store unless it is `guest`; then
call `Manager.AddUser`. A rejected or failed command leaves the state
unchanged (the console only prints a message). -/
def consoleRepoAddUser (st : ConsoleSt) (repoName userName permStr : String) :
    ConsoleSt :=
  let perm? : Option Perm :=
    if permStr = "r" then some Perm.pread
    else if permStr = "rw" then
      if userName = "guest" then none else some Perm.pwrite
    else none
  match perm? with
  | none => st
  | some perm =>
    if userName ≠ "guest" ∧ alookup st.auth userName = none then st
    else
      match mgrAddUser st.mgr repoName userName perm with
      | .error _ => st
      | .ok m' => { st with mgr := m' }

/-- One console command, as dispatched by `TUI.handleRepo` and
`TUI.handleUser`; failing or rejected commands leave the state unchanged. -/
def consoleStep (st : ConsoleSt) : ConsoleOp → ConsoleSt
  | .repoCreate name diskOk =>
    match mgrCreate st.mgr name diskOk with
    | .error _ => st
    | .ok m' => { st with mgr := m' }
  | .repoDelete name diskOk =>
    match mgrDelete st.mgr name diskOk with
    | .error _ => st
    | .ok m' => { st with mgr := m' }
  | .repoAddUser repoName userName permStr =>
    consoleRepoAddUser st repoName userName permStr
  | .repoDelUser repoName userName =>
    match mgrRemoveUser st.mgr repoName userName with
    | .error _ => st
    | .ok m' => { st with mgr := m' }
  | .userCreate name =>
    if name = "guest" then st
    else
      match authCreateUser st.auth name with
      | .error _ => st
      | .ok us => { st with auth := us }
  | .userDelete name =>
    if name = "guest" then st
    else
      match authDeleteUser st.auth name with
      | .error _ => st
      | .ok us => { st with auth := us }

/-- A whole console session: the commands applied in order. -/
def consoleRun (st : ConsoleSt) (ops : List ConsoleOp) : ConsoleSt :=
  ops.foldl consoleStep st

/-- `user create <name>` from `TUI.handleUser`, in isolation: the console
rejects the reserved name `guest` before calling the identity store. The
`Bool` reports whether the console-level guard rejected the request. -/
def consoleUserCreate (users : List (String × AuthUser)) (name : String) :
    Bool × Except String (List (String × AuthUser)) :=
  if name = "guest" then (true, .ok users)
  else (false, authCreateUser users name)

/-! ### Session router (`Server.handleSession`) -/

/-- `auth.UserType`. -/
inductive UserType where
  | unknown
  | admin
  | normal
deriving DecidableEq, Repr

/-- What a session ends as: running the admin console, rejected with a
message and exit status 1, or invoking the external git program on the
repository's full path with the connection wired to it. -/
inductive SessionOutcome where
  | consoleRun
  | denied (msg : String)
  | gitInvoked (cmd : Command) (fullPath : String)
deriving DecidableEq, Repr

/-- `Server.handleSession`: an empty raw command is a console request and is
admin-only; a nonempty command is refused for admin, then parsed, checked
against `CheckPermission` (with the empty username for an unresolved
identity), checked for on-disk existence, and only then executed. -/
def handleSession (userType : UserType) (userName : Option String)
    (rawCmd : String) (m : Mgr) (disk : String → Bool) : SessionOutcome :=
  if rawCmd = "" then
    if userType ≠ UserType.admin then .denied "Access denied: admin only"
    else .consoleRun
  else if userType = UserType.admin then
    .denied "Access denied: admins cannot perform Git operations"
  else
    match parseCommand rawCmd with
    | .error _ => .denied "Error: parse failure"
    | .ok gitCmd =>
      let uname := userName.getD ""
      if checkPermission m gitCmd.repoPath uname gitCmd.isWrite = false then
        .denied "Access denied: insufficient permissions"
      else
        let full := repoDiskPath m.basePath (trimGit gitCmd.repoPath)
        if disk full = false then .denied "Error: repository does not exist"
        else .gitInvoked gitCmd full

/-! ### The guest-write invariant -/

/-- A permission map holds no `guest → Write` pair. -/
def noGuestWrite (us : List (String × Perm)) : Bool :=
  us.all fun q => decide ¬(q.1 = "guest" ∧ q.2 = Perm.pwrite)

/-- No tracked repository maps `guest` to `Write`. -/
def guestWriteFree (m : Mgr) : Bool :=
  m.repos.all fun p => noGuestWrite p.2.users

/-! ### Concrete fixture states used to instantiate the theorems -/

/-- A repository whose table holds only `guest → Read`. -/
def exRepoGuest : Repository := ⟨"proj", "/srv/repos/proj.git", [("guest", Perm.pread)]⟩

/-- A manager tracking only `exRepoGuest`. -/
def exMgrGuest : Mgr := ⟨"/srv", [("proj", exRepoGuest)]⟩

/-- A repository with `alice → Write`, `bob → Read`, `guest → Read`. -/
def exRepoUsers : Repository :=
  ⟨"proj", "/srv/repos/proj.git",
    [("alice", Perm.pwrite), ("bob", Perm.pread), ("guest", Perm.pread)]⟩

/-- A manager tracking only `exRepoUsers`. -/
def exMgrUsers : Mgr := ⟨"/srv", [("proj", exRepoUsers)]⟩

/-- A repository with only `alice → Write` (no guest entry). -/
def exRepoAlice : Repository := ⟨"proj", "/srv/repos/proj.git", [("alice", Perm.pwrite)]⟩

/-- A manager tracking only `exRepoAlice`. -/
def exMgrAlice : Mgr := ⟨"/srv", [("proj", exRepoAlice)]⟩

/-- A manager tracking nothing. -/
def exMgrEmpty : Mgr := ⟨"/srv", []⟩

/-! ### Association-list lemmas -/

theorem alookup_ainsert {α : Type} (l : List (String × α)) (k k' : String)
    (v : α) :
    alookup (ainsert l k v) k' = if k = k' then some v else alookup l k' := by
  induction l with
  | nil =>
    simp only [ainsert, alookup]
  | cons h t ih =>
    obtain ⟨k₀, v₀⟩ := h
    simp only [ainsert]
    by_cases hk : k₀ = k
    · subst hk
      simp only [if_pos rfl, alookup]
      by_cases hk' : k₀ = k' <;> simp [hk']
    · rw [if_neg hk]
      simp only [alookup, ih]
      by_cases hk' : k₀ = k'
      · subst hk'
        rw [if_pos rfl, if_neg (fun hh => hk hh.symm), if_pos rfl]
      · rw [if_neg hk', if_neg hk']

theorem alookup_aerase {α : Type} (l : List (String × α)) (k k' : String) :
    alookup (aerase l k) k' = if k = k' then none else alookup l k' := by
  induction l with
  | nil =>
    simp only [aerase, alookup]
    split <;> rfl
  | cons h t ih =>
    obtain ⟨k₀, v₀⟩ := h
    simp only [aerase]
    by_cases hk : k₀ = k
    · subst hk
      rw [if_pos rfl, ih]
      by_cases hk' : k₀ = k'
      · subst hk'
        rw [if_pos rfl, if_pos rfl]
      · rw [if_neg hk', if_neg hk', alookup, if_neg hk']
    · rw [if_neg hk]
      simp only [alookup, ih]
      by_cases hk' : k₀ = k'
      · subst hk'
        rw [if_pos rfl, if_pos rfl, if_neg (fun hh => hk hh.symm)]
      · rw [if_neg hk', if_neg hk']

theorem aerase_of_alookup_none {α : Type} (l : List (String × α))
    (k : String) (h : alookup l k = none) : aerase l k = l := by
  induction l with
  | nil => rfl
  | cons hd t ih =>
    obtain ⟨k₀, v₀⟩ := hd
    simp only [alookup] at h
    by_cases hk : k₀ = k
    · rw [if_pos hk] at h
      exact absurd h (by simp)
    · rw [if_neg hk] at h
      simp only [aerase, if_neg hk, ih h]

theorem alookup_append_left {α : Type} (l l' : List (String × α))
    (k : String) (v : α) (h : alookup l k = some v) :
    alookup (l ++ l') k = some v := by
  induction l with
  | nil => simp [alookup] at h
  | cons hd t ih =>
    obtain ⟨k₀, v₀⟩ := hd
    simp only [alookup, List.cons_append] at *
    by_cases hk : k₀ = k
    · rwa [if_pos hk] at h ⊢
    · rw [if_neg hk] at h ⊢
      exact ih h

theorem alookup_append_right {α : Type} (l l' : List (String × α))
    (k : String) (h : alookup l k = none) :
    alookup (l ++ l') k = alookup l' k := by
  induction l with
  | nil => simp
  | cons hd t ih =>
    obtain ⟨k₀, v₀⟩ := hd
    simp only [alookup, List.cons_append] at *
    by_cases hk : k₀ = k
    · rw [if_pos hk] at h
      exact absurd h (by simp)
    · rw [if_neg hk] at h ⊢
      exact ih h

theorem alookup_mem {α : Type} (l : List (String × α)) (k : String) (v : α)
    (h : alookup l k = some v) : (k, v) ∈ l := by
  induction l with
  | nil => simp [alookup] at h
  | cons hd t ih =>
    obtain ⟨k₀, v₀⟩ := hd
    simp only [alookup] at h
    by_cases hk : k₀ = k
    · subst hk
      rw [if_pos rfl] at h
      cases h
      exact List.mem_cons_self _ _
    · rw [if_neg hk] at h
      exact List.mem_cons_of_mem _ (ih h)

/-! ### Claim theorems -/

/-- C1: if the repository that `CheckPermission` resolves (after trimming a
`.git` suffix) is tracked and its table maps `guest` to `Read` or higher,
then `CheckPermission(repo, user, false)` is true for every username —
empty, registered or unregistered — because the guest grant is evaluated
before the empty-username rejection; and `CheckPermission(repo, user,
false)` is false whenever the repository is untracked, or the table has no
`guest` entry and no entry for that user. -/
theorem checkPermission_guest_read_and_default_deny
    (m : Mgr) (repoName userName : String) :
    (∀ r g, alookup m.repos (trimGit repoName) = some r →
        alookup r.users "guest" = some g →
        Perm.pread.toNat ≤ g.toNat →
        checkPermission m repoName userName false = true)
    ∧ (alookup m.repos (trimGit repoName) = none →
        checkPermission m repoName userName false = false)
    ∧ (∀ r, alookup m.repos (trimGit repoName) = some r →
        alookup r.users "guest" = none →
        alookup r.users userName = none →
        checkPermission m repoName userName false = false) := by
  refine ⟨?_, ?_, ?_⟩
  · intro r g hr hg hge
    have hgOK : guestReadOK r = true := by
      unfold guestReadOK
      rw [hg]
      exact decide_eq_true hge
    simp [checkPermission, hr, hgOK]
  · intro hr
    simp [checkPermission, hr]
  · intro r hr hg hu
    have hgOK : guestReadOK r = false := by
      unfold guestReadOK
      rw [hg]
    by_cases hu0 : userName = ""
    · simp [checkPermission, hr, hgOK, hu0]
    · simp [checkPermission, hr, hgOK, hu0, hu]

/-- Closed instance of C1 at concrete tables: a guest-readable repository
grants anonymous and unknown-user reads, an untracked name is denied, and a
table with neither a guest entry nor a user entry denies. -/
theorem checkPermission_guest_read_witness :
    checkPermission exMgrGuest "proj" "" false = true
    ∧ checkPermission exMgrEmpty "proj" "mallory" false = false
    ∧ checkPermission exMgrAlice "proj" "charlie" false = false :=
  ⟨(checkPermission_guest_read_and_default_deny exMgrGuest "proj" "").1
      exRepoGuest Perm.pread (by decide) (by decide) (by decide),
   (checkPermission_guest_read_and_default_deny exMgrEmpty "proj" "mallory").2.1
      (by decide),
   (checkPermission_guest_read_and_default_deny exMgrAlice "proj" "charlie").2.2
      exRepoAlice (by decide) (by decide) (by decide)⟩

/-- C2: `CheckPermission(repo, user, true)` is true exactly when the
resolved repository is tracked, the username is nonempty, and that user's
own entry is exactly `Write`; read entries, guest entries and untracked
repositories never satisfy a write check. -/
theorem checkPermission_write_iff (m : Mgr) (repoName userName : String) :
    checkPermission m repoName userName true = true ↔
      ∃ r, alookup m.repos (trimGit repoName) = some r ∧ userName ≠ "" ∧
        alookup r.users userName = some Perm.pwrite := by
  cases hr : alookup m.repos (trimGit repoName) with
  | none => simp [checkPermission, hr]
  | some r =>
    by_cases hu0 : userName = ""
    · simp [checkPermission, hr, hu0]
    · cases hu : alookup r.users userName with
      | none => simp [checkPermission, hr, hu0, hu]
      | some p =>
        simp only [checkPermission, hr, hu, if_neg hu0, Option.some.injEq,
          decide_eq_true_eq]
        constructor
        · intro hp
          have hp' : p = Perm.pwrite := by
            revert hp
            simp
          exact ⟨r, rfl, hu0, by rw [hu, hp']⟩
        · rintro ⟨r', hr', -, hw⟩
          cases hr'
          rw [hu] at hw
          cases hw
          simp

/-- Closed instance of C2: a user with an exact `Write` entry passes the
write check, while a `Read` entry, the guest entry alone and an unknown
user do not. -/
theorem checkPermission_write_iff_witness :
    checkPermission exMgrUsers "proj" "alice" true = true
    ∧ checkPermission exMgrUsers "proj" "bob" true = false :=
  ⟨(checkPermission_write_iff exMgrUsers "proj" "alice").2
      ⟨exRepoUsers, by decide, by decide, by decide⟩,
   by
    have h := checkPermission_write_iff exMgrUsers "proj" "bob"
    cases hcp : checkPermission exMgrUsers "proj" "bob" true with
    | false => rfl
    | true =>
      obtain ⟨r, hr, -, hw⟩ := h.1 hcp
      have hre : alookup exMgrUsers.repos (trimGit "proj") = some exRepoUsers := by
        decide
      rw [hre] at hr
      cases hr
      exact absurd hw (by decide)⟩

/-! ### Path-grammar lemmas -/

theorem segOK_restOK_no_dot (l : List Char) :
    (segOK l = true → '.' ∉ l) ∧ (restOK l = true → '.' ∉ l) := by
  induction l with
  | nil => simp [segOK, restOK]
  | cons c rest ih =>
    constructor
    · intro h hm
      simp only [segOK, Bool.and_eq_true] at h
      rcases List.mem_cons.mp hm with hc | hc
      · rw [← hc] at h
        exact absurd h.1 (by decide)
      · exact ih.2 h.2 hc
    · intro h hm
      simp only [restOK] at h
      by_cases hc0 : c = '/'
      · rw [if_pos hc0] at h
        rcases List.mem_cons.mp hm with hc | hc
        · rw [hc0] at hc
          exact absurd hc (by decide)
        · exact ih.1 h hc
      · rw [if_neg hc0, Bool.and_eq_true] at h
        rcases List.mem_cons.mp hm with hc | hc
        · rw [← hc] at h
          exact absurd h.1 (by decide)
        · exact ih.2 h.2 hc

theorem repoPathOK_dot_count (l : List Char) (h : repoPathOK l = true) :
    l.count '.' = 1 := by
  simp only [repoPathOK, Bool.and_eq_true, decide_eq_true_eq] at h
  obtain ⟨⟨hlen, hdrop⟩, hseg⟩ := h
  have hsplit : l = l.take (l.length - 4) ++ l.drop (l.length - 4) :=
    (List.take_append_drop _ l).symm
  have hbody : (l.take (l.length - 4)).count '.' = 0 :=
    List.count_eq_zero.mpr ((segOK_restOK_no_dot _).1 hseg)
  calc l.count '.'
      = (l.take (l.length - 4)).count '.' + (l.drop (l.length - 4)).count '.' := by
        conv_lhs => rw [hsplit]
        exact List.count_append _ _ _
    _ = 1 := by rw [hbody, hdrop]; rfl

theorem repoPathOK_no_dotdot (l : List Char) (h : repoPathOK l = true) :
    ¬ ∃ a b, l = a ++ ['.', '.'] ++ b := by
  rintro ⟨a, b, rfl⟩
  have hc := repoPathOK_dot_count _ h
  rw [List.count_append, List.count_append] at hc
  have : (['.', '.'] : List Char).count '.' = 2 := rfl
  omega

theorem parseCommand_ok_allowed (raw : String) (c : Command)
    (h : parseCommand raw = .ok c) :
    c.cmd = "git-upload-pack" ∨ c.cmd = "git-receive-pack" := by
  simp only [parseCommand] at h
  split at h
  · exact absurd h (by simp)
  · rename_i pre arg
    split at h
    · split at h
      · rename_i ha _
        cases h
        simpa [allowedName] using ha
      · exact absurd h (by simp)
    · exact absurd h (by simp)

/-- C3: `ParseCommand` returns a command exactly when the trimmed raw
string splits at its first space into a whitelisted subcommand
(`git-upload-pack` or `git-receive-pack`) and an argument that, after
quote and leading-slash stripping, fully matches the
`[A-Za-z0-9_-]+(/[A-Za-z0-9_-]+)*\.git` grammar; otherwise it returns a
format error (no second token), a disallowed-command error, or an
invalid-path error. The grammar admits no `..` sequence anywhere, and a
session only ever invokes one of the two whitelisted program names. -/
theorem parseCommand_gateway (raw : String) :
    ((∃ c, parseCommand raw = .ok c) ↔
      (∃ pre arg, splitTwo (trimSpace raw.data) = (pre, some arg) ∧
        allowedName (String.mk pre) = true ∧
        repoPathOK (trimPrefixSlash (trimQuotes arg)) = true))
    ∧ ((splitTwo (trimSpace raw.data)).2 = none →
        parseCommand raw = .error .formatError)
    ∧ (∀ pre arg, splitTwo (trimSpace raw.data) = (pre, some arg) →
        allowedName (String.mk pre) = false →
        parseCommand raw = .error (.notAllowed (String.mk pre)))
    ∧ (∀ pre arg, splitTwo (trimSpace raw.data) = (pre, some arg) →
        allowedName (String.mk pre) = true →
        repoPathOK (trimPrefixSlash (trimQuotes arg)) = false →
        parseCommand raw =
          .error (.invalidPath (String.mk (trimPrefixSlash (trimQuotes arg)))))
    ∧ (∀ l, repoPathOK l = true → ¬ ∃ a b, l = a ++ ['.', '.'] ++ b)
    ∧ (∀ ut un m dsk c p, handleSession ut un raw m dsk = .gitInvoked c p →
        c.cmd = "git-upload-pack" ∨ c.cmd = "git-receive-pack") := by
  refine ⟨?_, ?_, ?_, ?_, repoPathOK_no_dotdot, ?_⟩
  · constructor
    · rintro ⟨c, hc⟩
      cases hs : splitTwo (trimSpace raw.data) with
      | mk pre o =>
        cases o with
        | none => simp [parseCommand, hs] at hc
        | some arg =>
          simp only [parseCommand, hs] at hc
          split at hc
          · split at hc
            · rename_i ha hp
              exact ⟨pre, arg, rfl, ha, hp⟩
            · exact absurd hc (by simp)
          · exact absurd hc (by simp)
    · rintro ⟨pre, arg, hs, ha, hp⟩
      refine ⟨⟨String.mk pre, String.mk (trimPrefixSlash (trimQuotes arg)),
        decide (String.mk pre = "git-receive-pack")⟩, ?_⟩
      simp only [parseCommand, hs, ha, if_true, hp]
  · intro h
    cases hs : splitTwo (trimSpace raw.data) with
    | mk pre o =>
      cases o with
      | none => simp [parseCommand, hs]
      | some arg =>
        rw [hs] at h
        exact absurd h (by simp)
  · intro pre arg hs ha
    simp [parseCommand, hs, ha]
  · intro pre arg hs ha hp
    simp [parseCommand, hs, ha, hp]
  · intro ut un m dsk c p h
    simp only [handleSession] at h
    split at h
    · split at h <;> exact absurd h (by simp)
    · split at h
      · exact absurd h (by simp)
      · split at h
        · exact absurd h (by simp)
        · rename_i gitCmd hparse
          split at h
          · exact absurd h (by simp)
          · split at h
            · exact absurd h (by simp)
            · cases h
              exact parseCommand_ok_allowed raw _ hparse

/-- Closed instances of C3: the disallowed command `ls -la`, the traversal
attempt `/../../etc/passwd`, and a well-formed fetch all behave as the
gateway contract states. -/
theorem parseCommand_gateway_witness :
    parseCommand "ls -la" = .error (.notAllowed "ls")
    ∧ parseCommand "git-upload-pack '/../../etc/passwd'" =
        .error (.invalidPath "../../etc/passwd")
    ∧ (∃ c, parseCommand "git-upload-pack 'proj.git'" = .ok c) := by
  refine ⟨?_, ?_, ?_⟩
  · have h := (parseCommand_gateway "ls -la").2.2.1 "ls".data "-la".data
      (by decide) (by decide)
    exact h.trans (by rfl)
  · have h := (parseCommand_gateway "git-upload-pack '/../../etc/passwd'").2.2.2.1
      "git-upload-pack".data "'/../../etc/passwd'".data (by decide) (by decide)
      (by decide)
    exact h.trans (by rfl)
  · exact (parseCommand_gateway "git-upload-pack 'proj.git'").1.2
      ⟨"git-upload-pack".data, "'proj.git'".data, by decide, by decide, by decide⟩

/-! ### Quote-trimming lemmas -/

theorem dropWhile_prefix_all (p : Char → Bool) (l : List Char) :
    ∃ a, l = a ++ l.dropWhile p ∧ a.all p = true := by
  induction l with
  | nil => exact ⟨[], rfl, rfl⟩
  | cons c t ih =>
    by_cases hc : p c = true
    · obtain ⟨a, ha, hall⟩ := ih
      refine ⟨c :: a, ?_, ?_⟩
      · rw [List.dropWhile_cons, if_pos hc, List.cons_append, ← ha]
      · simp [hc, hall]
    · refine ⟨[], ?_, rfl⟩
      rw [List.dropWhile_cons, if_neg hc, List.nil_append]

theorem head?_dropWhile_false (p : Char → Bool) (l : List Char) (c : Char)
    (h : (l.dropWhile p).head? = some c) : p c = false := by
  induction l with
  | nil => simp [List.dropWhile] at h
  | cons c₀ t ih =>
    rw [List.dropWhile_cons] at h
    by_cases hc : p c₀ = true
    · rw [if_pos hc] at h
      exact ih h
    · rw [if_neg hc] at h
      simp only [List.head?_cons, Option.some.injEq] at h
      rw [← h]
      exact Bool.not_eq_true _ |>.mp hc

theorem trimQuotes_eq_append (l : List Char) :
    ∃ b, l.dropWhile isQuote = trimQuotes l ++ b ∧ b.all isQuote = true := by
  obtain ⟨b, hb, hbq⟩ :=
    dropWhile_prefix_all isQuote (l.dropWhile isQuote).reverse
  refine ⟨b.reverse, ?_, by simpa using hbq⟩
  have h := congrArg List.reverse hb
  rw [List.reverse_reverse, List.reverse_append] at h
  rw [h]
  rfl

theorem trimQuotes_decomp (l : List Char) :
    ∃ a b, l = a ++ trimQuotes l ++ b ∧ a.all isQuote = true
      ∧ b.all isQuote = true := by
  obtain ⟨a, ha, haq⟩ := dropWhile_prefix_all isQuote l
  obtain ⟨b, hb, hbq⟩ := trimQuotes_eq_append l
  refine ⟨a, b, ?_, haq, hbq⟩
  conv_lhs => rw [ha, hb]
  rw [List.append_assoc]

theorem trimQuotes_head_not_quote (l : List Char) (c : Char)
    (h : (trimQuotes l).head? = some c) : isQuote c = false := by
  obtain ⟨b, hb, -⟩ := trimQuotes_eq_append l
  have hne : trimQuotes l ≠ [] := by
    intro hnil
    rw [hnil] at h
    simp at h
  have hhead : (l.dropWhile isQuote).head? = some c := by
    rw [hb]
    cases htq : trimQuotes l with
    | nil => exact absurd htq hne
    | cons x xs =>
      rw [htq] at h
      simp only [List.head?_cons, Option.some.injEq] at h
      simp [h]
  exact head?_dropWhile_false isQuote l c hhead

theorem trimQuotes_getLast_not_quote (l : List Char) (c : Char)
    (h : (trimQuotes l).getLast? = some c) : isQuote c = false := by
  have h' : ((l.dropWhile isQuote).reverse.dropWhile isQuote).head? = some c := by
    rw [← List.getLast?_reverse]
    exact h
  exact head?_dropWhile_false isQuote _ c h'

/-- C4 counterexample: on `git-upload-pack ''/proj.git''` the code strips
both layers of quotes (then the slash) and succeeds, while the single-layer
quote trim the claim states would leave one quote on each side and reject
the path — so `ParseCommand` does not trim exactly a single layer. -/
theorem parseCommand_single_layer_cex :
    parseCommand rawTwoLayerQuotes = .ok ⟨"git-upload-pack", "proj.git", false⟩
    ∧ parseCommandOneLayer rawTwoLayerQuotes = .error (.invalidPath "'/proj.git'")
    ∧ parseCommand rawTwoLayerQuotes ≠ parseCommandOneLayer rawTwoLayerQuotes := by
  refine ⟨by rfl, by rfl, ?_⟩
  intro h
  have h1 : parseCommand rawTwoLayerQuotes =
      .ok ⟨"git-upload-pack", "proj.git", false⟩ := by rfl
  have h2 : parseCommandOneLayer rawTwoLayerQuotes =
      .error (.invalidPath "'/proj.git'") := by rfl
  rw [h1, h2] at h
  exact Except.noConfusion h

/-- C4 (amended): `ParseCommand` trims all surrounding single- or
double-quote characters from the argument — the result neither starts nor
ends with a quote character and differs from the argument only by
surrounding quote characters — then strips at most one leading `/`; the two
example command lines of the claim parse exactly as stated. -/
theorem parseCommand_quote_trim_amended :
    (∀ l : List Char, ∃ a b, l = a ++ trimQuotes l ++ b ∧
        a.all isQuote = true ∧ b.all isQuote = true)
    ∧ (∀ l c, (trimQuotes l).head? = some c → isQuote c = false)
    ∧ (∀ l c, (trimQuotes l).getLast? = some c → isQuote c = false)
    ∧ (∀ r : List Char, trimPrefixSlash ('/' :: r) = r)
    ∧ (∀ l : List Char, l.head? ≠ some '/' → trimPrefixSlash l = l)
    ∧ parseCommand "git-upload-pack '/proj.git'" =
        .ok ⟨"git-upload-pack", "proj.git", false⟩
    ∧ parseCommand "git-receive-pack '/a/b/c.git'" =
        .ok ⟨"git-receive-pack", "a/b/c.git", true⟩ := by
  refine ⟨trimQuotes_decomp, trimQuotes_head_not_quote,
    trimQuotes_getLast_not_quote, ?_, ?_, by rfl, by rfl⟩
  · intro r
    simp [trimPrefixSlash]
  · intro l h
    cases l with
    | nil => rfl
    | cons c t =>
      simp only [List.head?_cons, ne_eq, Option.some.injEq] at h
      simp [trimPrefixSlash, h]

/-- Closed instance of C4 (amended) on the double-quoted argument: the
trimmed result starts with the slash (not a quote character). -/
theorem parseCommand_quote_trim_amended_witness :
    isQuote '/' = false ∧ trimPrefixSlash ('/' :: "proj.git".data) = "proj.git".data :=
  ⟨parseCommand_quote_trim_amended.2.1 "''/proj.git''".data '/' (by rfl),
   parseCommand_quote_trim_amended.2.2.2.1 "proj.git".data⟩

/-! ### Invariant-preservation lemmas -/

theorem all_ainsert {α : Type} (p : String × α → Bool) (l : List (String × α))
    (k : String) (v : α) (hl : l.all p = true) (hv : p (k, v) = true) :
    (ainsert l k v).all p = true := by
  induction l with
  | nil => simpa [ainsert] using hv
  | cons hd t ih =>
    obtain ⟨k₀, v₀⟩ := hd
    simp only [List.all_cons, Bool.and_eq_true] at hl
    simp only [ainsert]
    by_cases hk : k₀ = k
    · rw [if_pos hk]
      simp [hv, hl.2]
    · rw [if_neg hk]
      simp [hl.1, ih hl.2]

theorem all_aerase {α : Type} (p : String × α → Bool) (l : List (String × α))
    (k : String) (hl : l.all p = true) : (aerase l k).all p = true := by
  induction l with
  | nil => simp [aerase]
  | cons hd t ih =>
    obtain ⟨k₀, v₀⟩ := hd
    simp only [List.all_cons, Bool.and_eq_true] at hl
    simp only [aerase]
    by_cases hk : k₀ = k
    · rw [if_pos hk]
      exact ih hl.2
    · rw [if_neg hk]
      simp [hl.1, ih hl.2]

theorem savedUsers_no_guest_rw (us : List (String × Perm))
    (h : noGuestWrite us = true) :
    ∀ q ∈ savedUsers us, q.1 = "guest" → q.2 ≠ "rw" := by
  intro q hq hg
  obtain ⟨a, ha, hfa⟩ := List.mem_filterMap.mp hq
  have hnw := (List.all_eq_true.mp h) a ha
  cases hp : a.2 with
  | pnone => rw [hp] at hfa; exact absurd hfa (by simp)
  | pread =>
    rw [hp] at hfa
    simp only [Option.some.injEq] at hfa
    rw [← hfa]
    simp
  | pwrite =>
    rw [hp] at hfa
    simp only [Option.some.injEq] at hfa
    have ha1 : a.1 = "guest" := by rw [← hfa] at hg; exact hg
    rw [decide_eq_true_eq] at hnw
    exact absurd ⟨ha1, hp⟩ hnw

theorem parsePerms_noGuestWrite (us : List (String × String))
    (h : ∀ q ∈ us, q.1 = "guest" → q.2 ≠ "rw") :
    noGuestWrite (parsePerms us) = true := by
  rw [noGuestWrite, List.all_eq_true]
  intro q hq
  obtain ⟨a, ha, hfa⟩ := List.mem_filterMap.mp hq
  rw [decide_eq_true_eq]
  rintro ⟨hg, hw⟩
  by_cases hr : a.2 = "r"
  · rw [if_pos hr] at hfa
    simp only [Option.some.injEq] at hfa
    rw [← hfa] at hw
    exact absurd hw (by simp)
  · rw [if_neg hr] at hfa
    by_cases hrw : a.2 = "rw"
    · rw [if_pos hrw] at hfa
      simp only [Option.some.injEq] at hfa
      rw [← hfa] at hg
      exact h a ha hg hrw
    · rw [if_neg hrw] at hfa
      exact absurd hfa (by simp)

theorem loadRecords_guestWriteFree (recs : List RepoRec) (disk : String → Bool)
    (m₀ : Mgr) (h₀ : guestWriteFree m₀ = true)
    (hrecs : ∀ rec ∈ recs, ∀ q ∈ rec.users, q.1 = "guest" → q.2 ≠ "rw") :
    guestWriteFree (loadRecords recs disk m₀) = true := by
  induction recs generalizing m₀ with
  | nil => exact h₀
  | cons rd t ih =>
    simp only [loadRecords, List.foldl_cons]
    have hrd := hrecs rd (List.mem_cons_self _ _)
    have ht : ∀ rec ∈ t, ∀ q ∈ rec.users, q.1 = "guest" → q.2 ≠ "rw" :=
      fun rec hr => hrecs rec (List.mem_cons_of_mem _ hr)
    by_cases hd : disk rd.path = false
    · rw [if_pos hd]
      exact ih m₀ h₀ ht
    · rw [if_neg hd]
      by_cases hex : (alookup m₀.repos rd.name).isSome = true
      · rw [if_pos hex]
        exact ih m₀ h₀ ht
      · rw [if_neg hex]
        refine ih _ ?_ ht
        rw [guestWriteFree, List.all_append]
        refine Bool.and_eq_true _ _ |>.mpr ⟨h₀, ?_⟩
        simp only [List.all_cons, List.all_nil, Bool.and_true]
        exact parsePerms_noGuestWrite _ hrd

theorem saveRecords_no_guest_rw (m : Mgr) (h : guestWriteFree m = true) :
    ∀ rec ∈ saveRecords m, ∀ q ∈ rec.users, q.1 = "guest" → q.2 ≠ "rw" := by
  intro rec hrec
  obtain ⟨pr, hpr, hmap⟩ := List.mem_map.mp hrec
  have hus := (List.all_eq_true.mp h) pr hpr
  rw [← hmap]
  exact savedUsers_no_guest_rw _ hus

theorem mgrAddUser_guestWriteFree (m : Mgr) (rn un : String) (p : Perm)
    (m' : Mgr) (h : guestWriteFree m = true)
    (hne : ¬(un = "guest" ∧ p = Perm.pwrite))
    (hc : mgrAddUser m rn un p = .ok m') : guestWriteFree m' = true := by
  simp only [mgrAddUser] at hc
  split at hc
  · exact absurd hc (by simp)
  · rename_i r heq
    cases hc
    refine all_ainsert _ _ _ _ h ?_
    refine all_ainsert _ _ _ _ ?_ ?_
    · exact List.all_eq_true.mp h _ (alookup_mem _ _ _ heq)
    · exact decide_eq_true hne

theorem mgrRemoveUser_guestWriteFree (m : Mgr) (rn un : String) (m' : Mgr)
    (h : guestWriteFree m = true) (hc : mgrRemoveUser m rn un = .ok m') :
    guestWriteFree m' = true := by
  simp only [mgrRemoveUser] at hc
  split at hc
  · exact absurd hc (by simp)
  · rename_i r heq
    cases hc
    refine all_ainsert _ _ _ _ h ?_
    exact all_aerase _ _ _ (List.all_eq_true.mp h _ (alookup_mem _ _ _ heq))

theorem consoleStep_guestWriteFree (st : ConsoleSt) (op : ConsoleOp)
    (h : guestWriteFree st.mgr = true) :
    guestWriteFree (consoleStep st op).mgr = true := by
  cases op with
  | repoCreate name diskOk =>
    simp only [consoleStep]
    cases hc : mgrCreate st.mgr name diskOk with
    | error e => exact h
    | ok m' =>
      simp only [mgrCreate] at hc
      split at hc
      · exact absurd hc (by simp)
      · split at hc
        · cases hc
          rw [guestWriteFree, List.all_append]
          refine Bool.and_eq_true _ _ |>.mpr ⟨h, ?_⟩
          simp [noGuestWrite]
        · exact absurd hc (by simp)
  | repoDelete name diskOk =>
    simp only [consoleStep]
    cases hc : mgrDelete st.mgr name diskOk with
    | error e => exact h
    | ok m' =>
      simp only [mgrDelete] at hc
      split at hc
      · exact absurd hc (by simp)
      · split at hc
        · cases hc
          exact all_aerase _ _ _ h
        · exact absurd hc (by simp)
  | repoAddUser repoName userName permStr =>
    simp only [consoleStep, consoleRepoAddUser]
    by_cases hr : permStr = "r"
    · simp only [if_pos hr]
      split
      · exact h
      · cases hc : mgrAddUser st.mgr repoName userName Perm.pread with
        | error e => exact h
        | ok m' =>
          exact mgrAddUser_guestWriteFree _ _ _ _ _ h
            (fun hx => Perm.noConfusion hx.2) hc
    · by_cases hrw : permStr = "rw"
      · by_cases hg : userName = "guest"
        · simp only [if_neg hr, if_pos hrw, if_pos hg]
          exact h
        · simp only [if_neg hr, if_pos hrw, if_neg hg]
          split
          · exact h
          · cases hc : mgrAddUser st.mgr repoName userName Perm.pwrite with
            | error e => exact h
            | ok m' =>
              exact mgrAddUser_guestWriteFree _ _ _ _ _ h
                (fun hx => hg hx.1) hc
      · simp only [if_neg hr, if_neg hrw]
        exact h
  | repoDelUser repoName userName =>
    simp only [consoleStep]
    cases hc : mgrRemoveUser st.mgr repoName userName with
    | error e => exact h
    | ok m' => exact mgrRemoveUser_guestWriteFree _ _ _ _ h hc
  | userCreate name =>
    simp only [consoleStep]
    by_cases hg : name = "guest"
    · rw [if_pos hg]
      exact h
    · rw [if_neg hg]
      cases authCreateUser st.auth name with
      | error e => exact h
      | ok us => exact h
  | userDelete name =>
    simp only [consoleStep]
    by_cases hg : name = "guest"
    · rw [if_pos hg]
      exact h
    · rw [if_neg hg]
      cases authDeleteUser st.auth name with
      | error e => exact h
      | ok us => exact h

/-- C5 counterexample: the table-level `Manager.AddUser` performs no guest
check — called directly with `("guest", PermWrite)` on a tracked repository
it succeeds and leaves the table mapping `guest` to `Write`; the rejection
exists only in the console layer, so not every code path that would set
`guest → Write` is rejected before the table is mutated. -/
theorem addUser_guest_write_cex :
    mgrAddUser exMgrGuest "proj" "guest" Perm.pwrite =
      .ok ⟨"/srv", [("proj", ⟨"proj", "/srv/repos/proj.git",
        [("guest", Perm.pwrite)]⟩)]⟩
    ∧ guestWriteFree ⟨"/srv", [("proj", ⟨"proj", "/srv/repos/proj.git",
        [("guest", Perm.pwrite)]⟩)]⟩ = false := by
  exact ⟨by rfl, by rfl⟩

/-- C5 (amended): the console layer rejects `guest → Write` before the
table is mutated, so no sequence of console operations (repo
create/delete/adduser/deluser, user create/delete) starting from a
guest-Write-free state ever produces a table mapping `guest` to `Write`;
and loading a file that `SaveToFile` produced from a guest-Write-free table
into a guest-Write-free table preserves the invariant. The table-level
`AddUser` itself performs no such check (see the counterexample). -/
theorem guest_write_invariant :
    (∀ st ops, guestWriteFree st.mgr = true →
        guestWriteFree (consoleRun st ops).mgr = true)
    ∧ (∀ (m m₀ : Mgr) (disk : String → Bool), guestWriteFree m = true →
        guestWriteFree m₀ = true →
        guestWriteFree (loadRecords (saveRecords m) disk m₀) = true) := by
  constructor
  · intro st ops
    induction ops generalizing st with
    | nil => exact fun h => h
    | cons op t ih =>
      intro h
      exact ih _ (consoleStep_guestWriteFree st op h)
  · intro m m₀ disk hm h₀
    exact loadRecords_guestWriteFree _ disk m₀ h₀ (saveRecords_no_guest_rw m hm)

/-- Closed instance of C5 (amended): a console session that tries
`repo adduser proj guest rw` on a guest-readable repository leaves the
invariant intact, and a save/load round trip of that state does too. -/
theorem guest_write_invariant_witness :
    guestWriteFree (consoleRun ⟨[], exMgrGuest⟩
      [ConsoleOp.repoAddUser "proj" "guest" "rw"]).mgr = true
    ∧ guestWriteFree
        (loadRecords (saveRecords exMgrGuest) (fun _ => true) exMgrEmpty) = true :=
  ⟨guest_write_invariant.1 ⟨[], exMgrGuest⟩
      [ConsoleOp.repoAddUser "proj" "guest" "rw"] (by rfl),
   guest_write_invariant.2 exMgrGuest exMgrEmpty (fun _ => true)
      (by rfl) (by rfl)⟩

theorem ainsert_lookup_self {α : Type} (l : List (String × α)) (k : String)
    (v : α) (h : alookup l k = some v) : ainsert l k v = l := by
  induction l with
  | nil => simp [alookup] at h
  | cons hd t ih =>
    obtain ⟨k₀, v₀⟩ := hd
    simp only [alookup] at h
    simp only [ainsert]
    by_cases hk : k₀ = k
    · rw [if_pos hk] at h
      cases h
      rw [if_pos hk, hk]
    · rw [if_neg hk] at h
      rw [if_neg hk, ih h]

/-- C6 counterexample: on a table where `guest → Read`, `RemoveUser(proj,
guest)` succeeds and the guest entry is gone afterwards — the code deletes
it like any other entry rather than retaining it. -/
theorem removeUser_guest_removes_cex :
    alookup exRepoGuest.users "guest" = some Perm.pread
    ∧ mgrRemoveUser exMgrGuest "proj" "guest" =
        .ok ⟨"/srv", [("proj", ⟨"proj", "/srv/repos/proj.git", []⟩)]⟩
    ∧ alookup (aerase exRepoGuest.users "guest") "guest" = none :=
  ⟨by rfl, by rfl, by rfl⟩

/-- C6 (amended): `AddUser` and `RemoveUser` fail exactly when the named
repository is untracked; `RemoveUser` for a user with no entry succeeds
and leaves the manager unchanged; and `RemoveUser(repo, "guest")` succeeds
on a tracked repository and removes the guest entry like any other entry
(there is no guest-retention special case). -/
theorem add_remove_user_errors :
    (∀ m rn un p, (∃ e, mgrAddUser m rn un p = .error e) ↔
        alookup m.repos rn = none)
    ∧ (∀ m rn un, (∃ e, mgrRemoveUser m rn un = .error e) ↔
        alookup m.repos rn = none)
    ∧ (∀ m rn un r, alookup m.repos rn = some r →
        alookup r.users un = none → mgrRemoveUser m rn un = .ok m)
    ∧ (∀ m rn r, alookup m.repos rn = some r →
        ∃ m', mgrRemoveUser m rn "guest" = .ok m' ∧
          ∃ r', alookup m'.repos rn = some r' ∧
            alookup r'.users "guest" = none) := by
  refine ⟨?_, ?_, ?_, ?_⟩
  · intro m rn un p
    constructor
    · rintro ⟨e, he⟩
      cases hl : alookup m.repos rn with
      | none => rfl
      | some r => simp [mgrAddUser, hl] at he
    · intro hl
      exact ⟨"repository " ++ rn ++ " does not exist", by simp [mgrAddUser, hl]⟩
  · intro m rn un
    constructor
    · rintro ⟨e, he⟩
      cases hl : alookup m.repos rn with
      | none => rfl
      | some r => simp [mgrRemoveUser, hl] at he
    · intro hl
      exact ⟨"repository " ++ rn ++ " does not exist", by simp [mgrRemoveUser, hl]⟩
  · intro m rn un r hl hu
    have husers : aerase r.users un = r.users := aerase_of_alookup_none _ _ hu
    simp only [mgrRemoveUser, hl, husers]
    rw [ainsert_lookup_self m.repos rn r hl]
  · intro m rn r hl
    refine ⟨{ m with
        repos := ainsert m.repos rn { r with users := aerase r.users "guest" } },
      by simp only [mgrRemoveUser, hl], ?_⟩
    refine ⟨{ r with users := aerase r.users "guest" }, ?_, ?_⟩
    · rw [alookup_ainsert, if_pos rfl]
    · rw [alookup_aerase, if_pos rfl]

/-- Closed instance of C6 (amended): removing an absent user from a tracked
repository returns the manager unchanged, and adding a user to an untracked
repository errors. -/
theorem add_remove_user_errors_witness :
    mgrRemoveUser exMgrGuest "proj" "alice" = .ok exMgrGuest
    ∧ (∃ e, mgrAddUser exMgrEmpty "proj" "alice" Perm.pread = .error e) :=
  ⟨add_remove_user_errors.2.2.1 exMgrGuest "proj" "alice" exRepoGuest
      (by rfl) (by rfl),
   (add_remove_user_errors.1 exMgrEmpty "proj" "alice" Perm.pread).mpr (by rfl)⟩

/-! ### Codec lookup lemmas -/

theorem alookup_eq_none_of_not_mem {α : Type} (l : List (String × α))
    (k : String) (h : k ∉ l.map Prod.fst) : alookup l k = none := by
  induction l with
  | nil => rfl
  | cons hd t ih =>
    obtain ⟨k₀, v₀⟩ := hd
    simp only [List.map_cons, List.mem_cons] at h
    push_neg at h
    simp only [alookup]
    rw [if_neg (fun hh => h.1 hh.symm)]
    exact ih h.2

theorem savedUsers_keys_sublist (us : List (String × Perm)) :
    List.Sublist ((savedUsers us).map Prod.fst) (us.map Prod.fst) := by
  induction us with
  | nil => exact List.Sublist.refl _
  | cons hd t ih =>
    obtain ⟨k, p⟩ := hd
    cases p with
    | pnone =>
      simp only [savedUsers, List.filterMap_cons]
      exact List.Sublist.trans ih (List.sublist_cons_self _ _)
    | pread =>
      simp only [savedUsers, List.filterMap_cons]
      exact List.Sublist.cons₂ _ ih
    | pwrite =>
      simp only [savedUsers, List.filterMap_cons]
      exact List.Sublist.cons₂ _ ih

theorem alookup_savedUsers (us : List (String × Perm)) (u : String)
    (hnd : (us.map Prod.fst).Nodup) :
    alookup (savedUsers us) u =
      match alookup us u with
      | some Perm.pread => some "r"
      | some Perm.pwrite => some "rw"
      | _ => none := by
  induction us with
  | nil => rfl
  | cons hd t ih =>
    obtain ⟨k, p⟩ := hd
    simp only [List.map_cons, List.nodup_cons] at hnd
    by_cases hk : k = u
    · subst hk
      cases p with
      | pnone =>
        simp only [savedUsers, List.filterMap_cons, alookup, if_pos rfl]
        have : alookup (savedUsers t) k = none :=
          alookup_eq_none_of_not_mem _ k
            (fun hm => hnd.1 ((savedUsers_keys_sublist t).subset hm))
        rw [savedUsers] at this
        exact this
      | pread => simp [savedUsers, List.filterMap_cons, alookup]
      | pwrite => simp [savedUsers, List.filterMap_cons, alookup]
    · cases p with
      | pnone =>
        simp only [savedUsers, List.filterMap_cons, alookup, if_neg hk]
        rw [savedUsers] at ih
        exact ih hnd.2
      | pread =>
        simp only [savedUsers, List.filterMap_cons, alookup, if_neg hk]
        rw [savedUsers] at ih
        exact ih hnd.2
      | pwrite =>
        simp only [savedUsers, List.filterMap_cons, alookup, if_neg hk]
        rw [savedUsers] at ih
        exact ih hnd.2

theorem alookup_parsePerms (us : List (String × String)) (u : String)
    (hnd : (us.map Prod.fst).Nodup) :
    alookup (parsePerms us) u =
      (alookup us u).bind fun s =>
        if s = "r" then some Perm.pread
        else if s = "rw" then some Perm.pwrite
        else none := by
  induction us with
  | nil => rfl
  | cons hd t ih =>
    obtain ⟨k, s⟩ := hd
    simp only [List.map_cons, List.nodup_cons] at hnd
    have hkeys : List.Sublist ((parsePerms t).map Prod.fst) (t.map Prod.fst) := by
      clear ih hnd
      induction t with
      | nil => exact List.Sublist.refl _
      | cons hd₂ t₂ ih₂ =>
        obtain ⟨k₂, s₂⟩ := hd₂
        simp only [parsePerms, List.filterMap_cons]
        by_cases h2 : s₂ = "r"
        · rw [if_pos h2]
          simp only [List.map_cons]
          exact List.Sublist.cons₂ _ (by simpa [parsePerms] using ih₂)
        · rw [if_neg h2]
          by_cases h3 : s₂ = "rw"
          · rw [if_pos h3]
            simp only [List.map_cons]
            exact List.Sublist.cons₂ _ (by simpa [parsePerms] using ih₂)
          · rw [if_neg h3]
            exact List.Sublist.trans (by simpa [parsePerms] using ih₂)
              (List.sublist_cons_self _ _)
    by_cases hk : k = u
    · subst hk
      by_cases h2 : s = "r"
      · simp [parsePerms, List.filterMap_cons, h2, alookup]
      · by_cases h3 : s = "rw"
        · simp [parsePerms, List.filterMap_cons, h2, h3, alookup]
        · simp only [parsePerms, List.filterMap_cons, if_neg h2, if_neg h3,
            alookup, if_pos rfl]
          have : alookup (parsePerms t) k = none :=
            alookup_eq_none_of_not_mem _ k
              (fun hm => hnd.1 (hkeys.subset hm))
          rw [parsePerms] at this
          rw [this]
          simp [h2, h3]
    · by_cases h2 : s = "r"
      · simp only [parsePerms, List.filterMap_cons, if_pos h2, alookup,
          if_neg hk]
        rw [parsePerms] at ih
        exact ih hnd.2
      · by_cases h3 : s = "rw"
        · simp only [parsePerms, List.filterMap_cons, if_neg h2, if_pos h3,
            alookup, if_neg hk]
          rw [parsePerms] at ih
          exact ih hnd.2
        · simp only [parsePerms, List.filterMap_cons, if_neg h2, if_neg h3,
            alookup, if_neg hk]
          rw [parsePerms] at ih
          exact ih hnd.2

theorem round_perm_lookup (us : List (String × Perm)) (u : String)
    (hnd : (us.map Prod.fst).Nodup) :
    alookup (parsePerms (savedUsers us)) u =
      match alookup us u with
      | some Perm.pnone => none
      | x => x := by
  rw [alookup_parsePerms _ _ ((savedUsers_keys_sublist us).nodup hnd),
    alookup_savedUsers _ _ hnd]
  cases h : alookup us u with
  | none => rfl
  | some p => cases p <;> rfl

/-- C7: saving a table containing repository `P` with `alice → Write` and
`guest → Read` and loading the file into a fresh table reproduces the
entries exactly when `P`'s directory exists on disk, and leaves `P`
untracked when it does not; loading never overwrites an already-tracked
repository; and an unrecognized permission string drops only that user's
entry, not the record. -/
theorem save_load_round_trip :
    (∀ (bp bp₂ nm pth : String) (us : List (String × Perm))
        (disk : String → Bool),
      (us.map Prod.fst).Nodup →
      alookup us "alice" = some Perm.pwrite →
      alookup us "guest" = some Perm.pread →
      disk pth = true →
      ∃ r, alookup (loadRecords (saveRecords ⟨bp, [(nm, ⟨nm, pth, us⟩)]⟩)
            disk ⟨bp₂, []⟩).repos nm = some r ∧
        alookup r.users "alice" = some Perm.pwrite ∧
        alookup r.users "guest" = some Perm.pread ∧
        (∀ u, alookup us u ≠ some Perm.pnone →
          alookup r.users u = alookup us u))
    ∧ (∀ (bp bp₂ nm pth : String) (us : List (String × Perm))
        (disk : String → Bool),
      disk pth = false →
      alookup (loadRecords (saveRecords ⟨bp, [(nm, ⟨nm, pth, us⟩)]⟩)
          disk ⟨bp₂, []⟩).repos nm = none)
    ∧ (∀ recs disk (m : Mgr) n v, alookup m.repos n = some v →
        alookup (loadRecords recs disk m).repos n = some v)
    ∧ (∀ (us : List (String × String)) u s, (us.map Prod.fst).Nodup →
        alookup us u = some s → s ≠ "r" → s ≠ "rw" →
        alookup (parsePerms us) u = none) := by
  refine ⟨?_, ?_, ?_, ?_⟩
  · intro bp bp₂ nm pth us disk hnd ha hg hd
    have hload : loadRecords (saveRecords ⟨bp, [(nm, ⟨nm, pth, us⟩)]⟩)
        disk ⟨bp₂, []⟩ =
        ⟨bp₂, [(nm, ⟨nm, pth, parsePerms (savedUsers us)⟩)]⟩ := by
      simp [loadRecords, saveRecords, hd, alookup]
    refine ⟨⟨nm, pth, parsePerms (savedUsers us)⟩, ?_, ?_, ?_, ?_⟩
    · rw [hload]
      simp [alookup]
    · rw [round_perm_lookup us "alice" hnd, ha]
    · rw [round_perm_lookup us "guest" hnd, hg]
    · intro u hu
      rw [round_perm_lookup us u hnd]
      cases h : alookup us u with
      | none => rfl
      | some p =>
        cases p with
        | pnone => exact absurd h hu
        | pread => rfl
        | pwrite => rfl
  · intro bp bp₂ nm pth us disk hd
    simp [loadRecords, saveRecords, hd, alookup]
  · intro recs disk m n v hv
    induction recs generalizing m with
    | nil => exact hv
    | cons rd t ih =>
      simp only [loadRecords, List.foldl_cons]
      by_cases hdk : disk rd.path = false
      · rw [if_pos hdk]
        exact ih m hv
      · rw [if_neg hdk]
        by_cases hex : (alookup m.repos rd.name).isSome = true
        · rw [if_pos hex]
          exact ih m hv
        · rw [if_neg hex]
          exact ih _ (alookup_append_left _ _ _ _ hv)
  · intro us u s hnd hs hr hrw
    rw [alookup_parsePerms us u hnd, hs]
    simp [hr, hrw]

/-- Closed instances of C7: loading with the directory absent leaves `proj`
untracked; an unrecognized permission string `rwx` yields no entry; loading
a record for an already-tracked name does not overwrite it. -/
theorem save_load_round_trip_witness :
    alookup (loadRecords (saveRecords ⟨"/srv", [("proj", ⟨"proj",
        "/srv/repos/proj.git",
        [("alice", Perm.pwrite), ("guest", Perm.pread)]⟩)]⟩)
        (fun _ => false) ⟨"/data", []⟩).repos "proj" = none
    ∧ alookup (parsePerms [("carol", "rwx")]) "carol" = none
    ∧ alookup (loadRecords [⟨"proj", "/elsewhere/proj.git",
        [("eve", "rw")]⟩] (fun _ => true) exMgrGuest).repos "proj" =
      some exRepoGuest :=
  ⟨save_load_round_trip.2.1 "/srv" "/data" "proj" "/srv/repos/proj.git"
      [("alice", Perm.pwrite), ("guest", Perm.pread)] (fun _ => false) (by rfl),
   save_load_round_trip.2.2.2 [("carol", "rwx")] "carol" "rwx"
      (by decide) (by rfl) (by decide) (by decide),
   save_load_round_trip.2.2.1 [⟨"proj", "/elsewhere/proj.git", [("eve", "rw")]⟩]
      (fun _ => true) exMgrGuest "proj" exRepoGuest (by rfl)⟩

/-- C10: for each repository, `SaveToFile` serializes only entries whose
level is `Read` (as `"r"`) or `Write` (as `"rw"`); an entry explicitly set
to `None` is omitted from the saved record, and is therefore absent after a
save/load round trip. -/
theorem save_omits_none :
    (∀ (m : Mgr) rec, rec ∈ saveRecords m → ∀ q ∈ rec.users,
        q.2 = "r" ∨ q.2 = "rw")
    ∧ (∀ (us : List (String × Perm)) u, (us.map Prod.fst).Nodup →
        alookup us u = some Perm.pnone → alookup (savedUsers us) u = none)
    ∧ (∀ (us : List (String × Perm)) u, (us.map Prod.fst).Nodup →
        alookup us u = some Perm.pread → alookup (savedUsers us) u = some "r")
    ∧ (∀ (us : List (String × Perm)) u, (us.map Prod.fst).Nodup →
        alookup us u = some Perm.pwrite → alookup (savedUsers us) u = some "rw")
    ∧ (∀ (us : List (String × Perm)) u, (us.map Prod.fst).Nodup →
        alookup us u = some Perm.pnone →
        alookup (parsePerms (savedUsers us)) u = none) := by
  refine ⟨?_, ?_, ?_, ?_, ?_⟩
  · intro m rec hrec q hq
    obtain ⟨pr, -, hmap⟩ := List.mem_map.mp hrec
    rw [← hmap] at hq
    obtain ⟨a, -, hfa⟩ := List.mem_filterMap.mp hq
    cases hp : a.2 with
    | pnone => rw [hp] at hfa; exact absurd hfa (by simp)
    | pread =>
      rw [hp] at hfa
      simp only [Option.some.injEq] at hfa
      left
      rw [← hfa]
    | pwrite =>
      rw [hp] at hfa
      simp only [Option.some.injEq] at hfa
      right
      rw [← hfa]
  · intro us u hnd h
    rw [alookup_savedUsers us u hnd, h]
  · intro us u hnd h
    rw [alookup_savedUsers us u hnd, h]
  · intro us u hnd h
    rw [alookup_savedUsers us u hnd, h]
  · intro us u hnd h
    rw [round_perm_lookup us u hnd, h]

/-- Closed instance of C10: with `dave → None` stored explicitly, the saved
record keeps only `alice` (`rw`) and `guest` (`r`); `dave` is absent both
in the saved file and after the round trip. -/
theorem save_omits_none_witness :
    alookup (savedUsers [("alice", Perm.pwrite), ("dave", Perm.pnone),
        ("guest", Perm.pread)]) "dave" = none
    ∧ alookup (savedUsers [("alice", Perm.pwrite), ("dave", Perm.pnone),
        ("guest", Perm.pread)]) "alice" = some "rw"
    ∧ alookup (savedUsers [("alice", Perm.pwrite), ("dave", Perm.pnone),
        ("guest", Perm.pread)]) "guest" = some "r"
    ∧ alookup (parsePerms (savedUsers [("alice", Perm.pwrite),
        ("dave", Perm.pnone), ("guest", Perm.pread)])) "dave" = none :=
  ⟨save_omits_none.2.1 _ "dave" (by decide) (by decide),
   save_omits_none.2.2.2.1 _ "alice" (by decide) (by decide),
   save_omits_none.2.2.1 _ "guest" (by decide) (by decide),
   save_omits_none.2.2.2.2 _ "dave" (by decide) (by decide)⟩

/-- C8: with no client-supplied command the session reaches the console
exactly when the resolved identity is Admin, any other identity being
rejected (exit status 1) without reaching the console; with a command
string an Admin identity is always rejected and no Git process is ever
invoked for it. -/
theorem handleSession_console_admin_only
    (ut : UserType) (un : Option String) (rawCmd : String) (m : Mgr)
    (disk : String → Bool) :
    (rawCmd = "" →
      ((handleSession ut un rawCmd m disk = .consoleRun ↔ ut = UserType.admin)
       ∧ (ut ≠ UserType.admin → handleSession ut un rawCmd m disk =
            .denied "Access denied: admin only")))
    ∧ (rawCmd ≠ "" → ut = UserType.admin →
        handleSession ut un rawCmd m disk =
          .denied "Access denied: admins cannot perform Git operations"
        ∧ ∀ c p, handleSession ut un rawCmd m disk ≠ .gitInvoked c p) := by
  constructor
  · intro h0
    constructor
    · by_cases hut : ut = UserType.admin
      · simp [handleSession, h0, hut]
      · simp [handleSession, h0, hut]
    · intro hut
      simp [handleSession, h0, hut]
  · intro h0 hut
    constructor
    · simp [handleSession, h0, hut]
    · intro c p
      simp [handleSession, h0, hut]

/-- Closed instances of C8: admin with no command reaches the console, a
non-admin with no command is denied, and admin with a git command is
denied. -/
theorem handleSession_console_admin_only_witness :
    handleSession UserType.admin none "" exMgrGuest (fun _ => true) =
      .consoleRun
    ∧ handleSession UserType.unknown none "" exMgrGuest (fun _ => true) =
        .denied "Access denied: admin only"
    ∧ handleSession UserType.admin none "git-upload-pack proj.git" exMgrGuest
        (fun _ => true) =
        .denied "Access denied: admins cannot perform Git operations" :=
  ⟨((handleSession_console_admin_only UserType.admin none "" exMgrGuest
      (fun _ => true)).1 rfl).1.mpr rfl,
   ((handleSession_console_admin_only UserType.unknown none "" exMgrGuest
      (fun _ => true)).1 rfl).2 (by decide),
   (((handleSession_console_admin_only UserType.admin none
      "git-upload-pack proj.git" exMgrGuest (fun _ => true)).2
      (by decide) rfl).1)⟩

/-- C9: at the identity-store level, `CreateUser(name)` succeeds for every
name other than `admin` that is not already registered — in particular
`CreateUser("guest")` succeeds there; the reserved name `guest` is blocked
only by the console-layer check, which rejects it before the store is
called. -/
theorem createUser_store_level (users : List (String × AuthUser))
    (name : String) :
    (authCreateUser users name = .ok (users ++ [(name, ⟨name, []⟩)]) ↔
      (name ≠ "admin" ∧ alookup users name = none))
    ∧ ((name = "admin" ∨ (∃ u, alookup users name = some u)) →
        ∃ e, authCreateUser users name = .error e)
    ∧ (alookup users "guest" = none →
        authCreateUser users "guest" = .ok (users ++ [("guest", ⟨"guest", []⟩)]))
    ∧ consoleUserCreate users "guest" = (true, .ok users) := by
  refine ⟨?_, ?_, ?_, by simp [consoleUserCreate]⟩
  · constructor
    · intro h
      by_cases hadm : name = "admin"
      · simp [authCreateUser, hadm] at h
      · cases hl : alookup users name with
        | none => exact ⟨hadm, rfl⟩
        | some u => simp [authCreateUser, hadm, hl] at h
    · rintro ⟨hadm, hl⟩
      simp [authCreateUser, hadm, hl]
  · rintro (hadm | ⟨u, hu⟩)
    · exact ⟨"cannot create user named admin", by simp [authCreateUser, hadm]⟩
    · by_cases hadm : name = "admin"
      · exact ⟨"cannot create user named admin", by simp [authCreateUser, hadm]⟩
      · exact ⟨"user " ++ name ++ " already exists",
          by simp [authCreateUser, hadm, hu]⟩
  · intro hl
    simp [authCreateUser, hl]

/-- Closed instance of C9: with only `bob` registered, the store accepts
`guest`, while the console rejects it before reaching the store. -/
theorem createUser_store_level_witness :
    authCreateUser [("bob", ⟨"bob", []⟩)] "guest" =
      .ok [("bob", ⟨"bob", []⟩), ("guest", ⟨"guest", []⟩)]
    ∧ consoleUserCreate [("bob", ⟨"bob", []⟩)] "guest" =
        (true, .ok [("bob", ⟨"bob", []⟩)]) :=
  ⟨(createUser_store_level [("bob", ⟨"bob", []⟩)] "guest").2.2.1 (by rfl),
   (createUser_store_level [("bob", ⟨"bob", []⟩)] "guest").2.2.2⟩

end Gitlite
